import Mathlib

/-!
Shallow embedding of the philaxmed-automation scrape server (server.js and its
revisions).  Strings are modelled as lists of characters; JavaScript Unicode
operations (NFD decomposition, diacritic stripping, case folding) are modelled
character-wise over the repertoire the program manipulates (Spanish accented
Latin letters); machine time is modelled as natural-number milliseconds.
-/

/-- Whitespace characters recognised by the JavaScript regexp class `\s`
(restricted to the forms occurring in the scraped text). -/
def isWs (c : Char) : Bool :=
  c == ' ' || c == '\t' || c == '\n' || c == '\r' || c == '\u000B' ||
    c == '\u000C' || c == '\u00A0'

/-- Combining diacritical marks (U+0300 – U+036F), the characters removed by
JavaScript `.replace(/\p{Diacritic}/gu, '')` after NFD decomposition. -/
def isDiacritic (c : Char) : Bool :=
  0x300 ≤ c.toNat && c.toNat ≤ 0x36F

/-- NFD decomposition data for the accented Latin letters handled by the
server (base letter and combining mark), `none` for characters that are
their own NFD decomposition. -/
def accentBase : Char → Option (Char × Char)
  | 'á' => some ('a', '\u0301')
  | 'é' => some ('e', '\u0301')
  | 'í' => some ('i', '\u0301')
  | 'ó' => some ('o', '\u0301')
  | 'ú' => some ('u', '\u0301')
  | 'Á' => some ('A', '\u0301')
  | 'É' => some ('E', '\u0301')
  | 'Í' => some ('I', '\u0301')
  | 'Ó' => some ('O', '\u0301')
  | 'Ú' => some ('U', '\u0301')
  | 'ü' => some ('u', '\u0308')
  | 'Ü' => some ('U', '\u0308')
  | 'ñ' => some ('n', '\u0303')
  | 'Ñ' => some ('N', '\u0303')
  | _ => none

/-- Character-wise model of JavaScript `String.prototype.normalize('NFD')`. -/
def decomp (c : Char) : List Char :=
  match accentBase c with
  | some (b, m) => [b, m]
  | none => [c]

/-- ASCII lower-casing, the part of JavaScript `.toLowerCase()` relevant after
NFD decomposition has already replaced accented letters by base letters. -/
def jsLower : Char → Char
  | 'A' => 'a'
  | 'B' => 'b'
  | 'C' => 'c'
  | 'D' => 'd'
  | 'E' => 'e'
  | 'F' => 'f'
  | 'G' => 'g'
  | 'H' => 'h'
  | 'I' => 'i'
  | 'J' => 'j'
  | 'K' => 'k'
  | 'L' => 'l'
  | 'M' => 'm'
  | 'N' => 'n'
  | 'O' => 'o'
  | 'P' => 'p'
  | 'Q' => 'q'
  | 'R' => 'r'
  | 'S' => 's'
  | 'T' => 't'
  | 'U' => 'u'
  | 'V' => 'v'
  | 'W' => 'w'
  | 'X' => 'x'
  | 'Y' => 'y'
  | 'Z' => 'z'
  | c => c

/-- ASCII upper-casing, used to model case-insensitive (`/i`) regexp matching. -/
def asciiUpper : Char → Char
  | 'a' => 'A'
  | 'b' => 'B'
  | 'c' => 'C'
  | 'd' => 'D'
  | 'e' => 'E'
  | 'f' => 'F'
  | 'g' => 'G'
  | 'h' => 'H'
  | 'i' => 'I'
  | 'j' => 'J'
  | 'k' => 'K'
  | 'l' => 'L'
  | 'm' => 'M'
  | 'n' => 'N'
  | 'o' => 'O'
  | 'p' => 'P'
  | 'q' => 'Q'
  | 'r' => 'R'
  | 's' => 'S'
  | 't' => 'T'
  | 'u' => 'U'
  | 'v' => 'V'
  | 'w' => 'W'
  | 'x' => 'X'
  | 'y' => 'Y'
  | 'z' => 'Z'
  | c => c

/-- Model of `.replace(/\s+/g, ' ')`: every maximal run of whitespace becomes a
single space. -/
def collapseWs : List Char → List Char
  | [] => []
  | [c] => if isWs c then [' '] else [c]
  | c :: d :: rest =>
    if isWs c && isWs d then collapseWs (d :: rest)
    else (if isWs c then ' ' else c) :: collapseWs (d :: rest)

/-- Remove trailing whitespace (the right half of JavaScript `.trim()`). -/
def trimRight : List Char → List Char
  | [] => []
  | c :: rest =>
    match trimRight rest with
    | [] => if isWs c then [] else [c]
    | r :: rs => c :: r :: rs

/-- Model of JavaScript `.trim()`: drop leading and trailing whitespace. -/
def trimStr (l : List Char) : List Char :=
  trimRight (l.dropWhile isWs)

/-- `normalizeStringNode` from server.js: NFD-decompose, strip diacritics,
lower-case, trim, collapse internal whitespace; the empty (falsy) string maps
to the empty string. -/
def normalizeStringNode (l : List Char) : List Char :=
  if l = [] then []
  else collapseWs (trimStr (((l.flatMap decomp).filter (fun c => !isDiacritic c)).map jsLower))

/-- `normalizeStringNode` lifted to a nullable argument: JavaScript `null` and
`undefined` are falsy, so they also yield the empty string. -/
def normalizeStringNodeOpt : Option (List Char) → List Char
  | none => []
  | some l => normalizeStringNode l

/-- JavaScript `bodyText.split('\n')`. -/
def splitLines : List Char → List (List Char)
  | [] => [[]]
  | c :: t =>
    if c == '\n' then [] :: splitLines t
    else
      match splitLines t with
      | [] => [[c]]
      | l :: ls => (c :: l) :: ls

/-- `bodyText.split('\n').map(l => l.trim()).filter(l => l)`: trimmed,
non-empty rendered lines, the input of both DOM text extractors. -/
def linesOf (body : List Char) : List (List Char) :=
  ((splitLines body).map trimStr).filter (fun l => !l.isEmpty)

/-- ASCII digits, the JavaScript regexp class `\d`. -/
def isDigit (c : Char) : Bool :=
  '0' ≤ c && c ≤ '9'

/-- The one-digit-hour case `\d:\d\d` of the time pattern, tried at the head of
the list after the greedy two-digit attempt fails. -/
def matchTimeOne : List Char → Option (List Char × List Char)
  | d1 :: c :: d3 :: d4 :: rest =>
    if isDigit d1 && c == ':' && isDigit d3 && isDigit d4 then some ([d1, ':', d3, d4], rest)
    else none
  | _ => none

/-- The greedy `\d{1,2}:\d{2}` at the head of the list: two hour digits are
tried first, backtracking to one. Returns the captured time and the rest. -/
def matchTimeAt (l : List Char) : Option (List Char × List Char) :=
  match l with
  | d1 :: d2 :: c :: d3 :: d4 :: _ =>
    if isDigit d1 && isDigit d2 && c == ':' && isDigit d3 && isDigit d4 then
      some ([d1, d2, ':', d3, d4], (l.drop 5))
    else matchTimeOne l
  | _ => matchTimeOne l

/-- Leftmost-match scan for the `\s`-anchored start positions: at each later
start index the regexp first consumes one whitespace character. -/
def slideTime : List Char → Option (List Char × List Char)
  | [] => none
  | c :: t =>
    if isWs c then
      match matchTimeAt t with
      | some r => some r
      | none => slideTime t
    else slideTime t

/-- First match of `(?:^|\s)(\d{1,2}:\d{2})` in a line: the `^` alternative at
index 0, then the sliding `\s`-anchored alternatives left to right. -/
def findTime (l : List Char) : Option (List Char × List Char) :=
  match matchTimeAt l with
  | some r => some r
  | none => slideTime l

/-- Case-insensitive test that the upper-case pattern `pat` starts the text. -/
def startsWithCI : List Char → List Char → Bool
  | [], _ => true
  | _ :: _, [] => false
  | p :: ps, c :: cs => (asciiUpper c == p) && startsWithCI ps cs

/-- Case-insensitive substring test, modelling `/pat/i.test(s)` for an ASCII
literal pattern (given upper-case). -/
def containsCI (pat : List Char) : List Char → Bool
  | [] => startsWithCI pat []
  | c :: t => startsWithCI pat (c :: t) || containsCI pat t

/-- The dash class `[-–—]` of the availability suffix. -/
def isDash (c : Char) : Bool :=
  c == '-' || c == '\u2013' || c == '\u2014'

/-- After the captured time the regexp optionally matches `\s*[-–—]?\s*` and an
optional keyword group; the canonical (upper-cased) keyword is `m[2].toUpperCase()`. -/
def keywordAfter (rest : List Char) : Option (List Char) :=
  let r1 := rest.dropWhile isWs
  let r2 :=
    match r1 with
    | c :: t => if isDash c then t.dropWhile isWs else r1
    | [] => r1
  if startsWithCI "DISPONIBLE".data r2 then some "DISPONIBLE".data
  else if startsWithCI "OCUPADO".data r2 then some "OCUPADO".data
  else if startsWithCI "RESERVADO".data r2 then some "RESERVADO".data
  else none

/-- One element of `horasData`: captured time, availability flag and estado. -/
structure HoraRec where
  hora : List Char
  disponible : Bool
  estado : List Char
deriving DecidableEq

/-- The projected slot `{hora, estado}` returned to callers. -/
structure HoraOut where
  hora : List Char
  estado : List Char
deriving DecidableEq

/-- One iteration of the `/api/horas` extraction loop: first regexp match on a
line, estado classification from the keyword, and the availability default
(no explicit OCUPADO in the line counts as available). -/
def horaOfLine (line : List Char) : Option HoraRec :=
  match findTime line with
  | none => none
  | some (hora, rest) =>
    let estadoRaw := keywordAfter rest
    let estado :=
      if estadoRaw == some "OCUPADO".data then "OCUPADO".data
      else if estadoRaw == some "DISPONIBLE".data then "DISPONIBLE".data
      else "DESCONOCIDO".data
    let disponible :=
      estado == "DISPONIBLE".data ||
        (estado == "DESCONOCIDO".data && !containsCI "OCUPADO".data line)
    some { hora := hora, disponible := disponible, estado := estado }

/-- The `page.evaluate` body of the `/api/horas` DOM extraction: run the time
regexp over the trimmed non-empty lines of the rendered text. -/
def horasData (body : List Char) : List HoraRec :=
  (linesOf body).filterMap horaOfLine

/-- `horasDisponibles`: keep the available slots and project to `{hora, estado}`. -/
def horasDisponibles (body : List Char) : List HoraOut :=
  ((horasData body).filter (fun h => h.disponible)).map
    (fun h => { hora := h.hora, estado := h.estado })

/-- The seen-set dedupe loop over the available slots: the first occurrence of
each clock-time string wins. -/
def dedupeHoras (seen : List (List Char)) : List HoraOut → List HoraOut
  | [] => []
  | h :: t =>
    if h.hora ∈ seen then dedupeHoras seen t
    else h :: dedupeHoras (h.hora :: seen) t

/-- `uniqueHoras`, the slot list the `/api/horas` handler returns for rendered
body text. -/
def uniqueHoras (body : List Char) : List HoraOut :=
  dedupeHoras [] (horasDisponibles body)

/-- Raw practitioner record pushed by the `/api/profesionales` line scan. -/
structure ProfRec where
  nombre : List Char
  especialidad : List Char
  sucursal : List Char
  value : List Char
deriving DecidableEq

/-- Shape of the objects pushed by the dedupe loop of `/api/profesionales`:
the code builds `{nombre, value, especialidad}`; the `sucursal` key is absent,
modelled as an `Option` field the loop always leaves `none`. -/
structure ProfOut where
  nombre : List Char
  value : List Char
  especialidad : List Char
  sucursal : Option (List Char)
deriving DecidableEq

/-- `/especialidad[:\s]/i` anchored at the head of the list. -/
def espMarkerAt (l : List Char) : Bool :=
  startsWithCI "ESPECIALIDAD".data l &&
    (match l.drop 12 with
     | c :: _ => c == ':' || isWs c
     | [] => false)

/-- `/especialidad[:\s]/i.test(line)`. -/
def hasEspMarker : List Char → Bool
  | [] => false
  | c :: t => espMarkerAt (c :: t) || hasEspMarker t

/-- `line.replace(/Especialidad[:\s]/i, '')`: delete the first occurrence of
the 13-character marker match. -/
def removeEspMarker : List Char → List Char
  | [] => []
  | c :: t => if espMarkerAt (c :: t) then t.drop 12 else c :: removeEspMarker t

/-- `/Sucursal[:\s]/i` anchored at the head of the list. -/
def sucMarkerAt (l : List Char) : Bool :=
  startsWithCI "SUCURSAL".data l &&
    (match l.drop 8 with
     | c :: _ => c == ':' || isWs c
     | [] => false)

/-- `/Sucursal[:\s]/i.test(line)`. -/
def hasSucMarker : List Char → Bool
  | [] => false
  | c :: t => sucMarkerAt (c :: t) || hasSucMarker t

/-- `line.replace(/Sucursal[:\s]/i, '')`. -/
def removeSucMarker : List Char → List Char
  | [] => []
  | c :: t => if sucMarkerAt (c :: t) then t.drop 8 else c :: removeSucMarker t

/-- The `sucursal` branch on the following line `lines[i+1]`. -/
def sucValue : Option (List Char) → List Char
  | some nl => if hasSucMarker nl then trimStr (removeSucMarker nl) else []
  | none => []

/-- The name filter
`nombre && nombre.length > 3 && !/especialidad|seleccione/i.test(nombre)`. -/
def nombreOk (nombre : List Char) : Bool :=
  !nombre.isEmpty && decide (3 < nombre.length) &&
    !(containsCI "ESPECIALIDAD".data nombre || containsCI "SELECCIONE".data nombre)

/-- The line scan of the `/api/profesionales` extraction: every marker line at
index `i > 0` (so with a previous line, carried in the accumulator) yields a
raw record built from the previous line, the marker line and the next line. -/
def profScan : Option (List Char) → List (List Char) → List ProfRec
  | _, [] => []
  | prev, line :: rest =>
    (match prev with
     | none => []
     | some p =>
       if hasEspMarker line && nombreOk p then
         [{ nombre := p, especialidad := trimStr (removeEspMarker line),
            sucursal := sucValue rest.head?, value := p }]
       else []) ++ profScan (some line) rest

/-- `profesionalesData` of the `/api/profesionales` extraction (the text-line
strategy; the card-element fallback reads the DOM, outside this text model). -/
def profRaw (body : List Char) : List ProfRec :=
  profScan none (linesOf body)

/-- The dedupe loop of `/api/profesionales`: key is the trimmed name; empty and
already-seen keys are skipped; kept entries are rebuilt as
`{nombre: key, value: key, especialidad}` without a `sucursal` key. -/
def dedupeProf (seen : List (List Char)) : List ProfRec → List ProfOut
  | [] => []
  | p :: t =>
    let key := trimStr p.nombre
    if key = [] then dedupeProf seen t
    else if key ∈ seen then dedupeProf seen t
    else { nombre := key, value := key, especialidad := p.especialidad, sucursal := none } ::
      dedupeProf (key :: seen) t

/-- The de-duplicated practitioner list returned for rendered body text. -/
def extractProfesionales (body : List Char) : List ProfOut :=
  dedupeProf [] (profRaw body)
/-- The single especialidades cache cell `{ ts, ttl, data }`; `data` is `null`
initially, hence an `Option`. -/
structure CacheCell (α : Type) where
  ts : Nat
  ttl : Nat
  data : Option α
deriving DecidableEq

/-- One entry of the keyed profesionales / horas cache maps. -/
structure CacheMapEntry (α : Type) where
  ts : Nat
  ttl : Nat
  data : α
deriving DecidableEq

/-- The in-memory `CACHE` object: a single especialidades cell and per-key
maps, modelled as association lists where insertion prepends (later writes
shadow earlier ones under first-match lookup). -/
structure CacheState (α : Type) where
  especialidades : CacheCell α
  profesionales : List (List Char × CacheMapEntry α)
  horas : List (List Char × CacheMapEntry α)
deriving DecidableEq

inductive CacheType
  | especialidades
  | profesionales
  | horas
deriving DecidableEq

/-- The initial `CACHE` value: `{ ts:0, ttl: 5 min, data: null }` and empty maps. -/
def initCache (α : Type) : CacheState α :=
  { especialidades := { ts := 0, ttl := 1000 * 60 * 5, data := none },
    profesionales := [], horas := [] }

/-- Keyed-map read: `const c = map[key]; if (c && (now - c.ts) < (ttl || c.ttl))
return c.data; return null;` with `ttlArg = 0` modelling an absent ttl argument. -/
def getCacheMap (m : List (List Char × CacheMapEntry α)) (key : List Char)
    (ttlArg now : Nat) : Option α :=
  match m.lookup key with
  | some c => if now - c.ts < (if ttlArg = 0 then c.ttl else ttlArg) then some c.data else none
  | none => none

/-- `getCache({type, key, ttl})` at time `now`. The especialidades branch reads
the single cell (no key); the other branches read their keyed maps. -/
def getCache (ty : CacheType) (key : List Char) (ttlArg now : Nat)
    (st : CacheState α) : Option α :=
  match ty with
  | .especialidades =>
    match st.especialidades.data with
    | some d =>
      if now - st.especialidades.ts <
          (if ttlArg = 0 then st.especialidades.ttl else ttlArg) then some d
      else none
    | none => none
  | .profesionales => getCacheMap st.profesionales key ttlArg now
  | .horas => getCacheMap st.horas key ttlArg now

/-- `setCache({type, key, ttl}, data)` at time `now`, with the source defaults:
the especialidades cell keeps its current ttl, profesionales defaults to 5
minutes and horas to 30 seconds when no ttl argument is given. -/
def setCache (ty : CacheType) (key : List Char) (ttlArg now : Nat) (d : α)
    (st : CacheState α) : CacheState α :=
  match ty with
  | .especialidades =>
    { st with especialidades :=
        { ts := now, ttl := if ttlArg = 0 then st.especialidades.ttl else ttlArg,
          data := some d } }
  | .profesionales =>
    { st with profesionales :=
        (key, { ts := now, ttl := if ttlArg = 0 then 1000 * 60 * 5 else ttlArg, data := d }) ::
          st.profesionales }
  | .horas =>
    { st with horas :=
        (key, { ts := now, ttl := if ttlArg = 0 then 1000 * 30 else ttlArg, data := d }) ::
          st.horas }

/-- The cache key built by `/api/profesionales`: `agenda + '|' + especialidad`. -/
def profCacheKey (agenda especialidad : List Char) : List Char :=
  agenda ++ '|' :: especialidad

/-- The cache key built by `/api/horas`:
`agenda + '|' + especialidad + '|' + profesional`; the optional `fecha`
request parameter is not part of the key. -/
def horasCacheKey (agenda especialidad profesional : List Char) : List Char :=
  agenda ++ '|' :: (especialidad ++ '|' :: profesional)

/-- The `/api/especialidades` cache check: the handler calls
`getCache({type:'especialidades'})` with no key, so the requested `agenda`
does not participate in the lookup. -/
def especialidadesCacheCheck (agenda : List Char) (now : Nat) (st : CacheState α) : Option α :=
  getCache CacheType.especialidades [] 0 now st

/-- The `/api/horas` cache check: keyed by agenda, especialidad and
profesional; the `fecha` parameter does not participate in the lookup. -/
def horasCacheCheck (agenda especialidad profesional fecha : List Char) (now : Nat)
    (st : CacheState α) : Option α :=
  getCache CacheType.horas (horasCacheKey agenda especialidad profesional) 0 now st

/-- Outcome of a queued workflow body: a success payload or the structured
`{success:false, error}` soft failure. -/
inductive WorkResult (α : Type)
  | ok (payload : α)
  | softFail (error : List Char)
deriving DecidableEq

/-- Cache behaviour of the `/api/horas` queued handler around its result: the
success path calls `setCache` with a 60 s ttl just before returning; the
soft-failure paths return `{success:false}` before reaching `setCache`; a
thrown error propagates past it. Failure results therefore never reach the
cache. -/
def horasCacheStep (key : List Char) (now : Nat)
    (r : Except (List Char) (WorkResult α)) (st : CacheState α) : CacheState α :=
  match r with
  | .ok (.ok payload) => setCache CacheType.horas key (1000 * 60) now payload st
  | .ok (.softFail _) => st
  | .error _ => st

/-- Cache behaviour of the `/api/profesionales` queued handler around its
result: the success path calls `setCache` with no ttl argument (so the stored
entry gets the 5-minute default) just before returning; the especialidad
soft-failure path returns `{success:false}` before reaching `setCache`; a
thrown error propagates past it. Failure results therefore never reach this
cache either. -/
def profesionalesCacheStep (key : List Char) (now : Nat)
    (r : Except (List Char) (WorkResult α)) (st : CacheState α) : CacheState α :=
  match r with
  | .ok (.ok payload) => setCache CacheType.profesionales key 0 now payload st
  | .ok (.softFail _) => st
  | .error _ => st

/-- Stub of the especialidades response object, recording the request
parameter it was produced for (`agenda: agenda` in the source) and a total. -/
structure EspResponse where
  agenda : List Char
  total : Nat
deriving DecidableEq

/-- Stub of the horas response object, recording the `fecha` echoed by the
handler along with the slots. -/
structure HorasResponse where
  fecha : List Char
  horas : List HoraOut
deriving DecidableEq

/-- Browser Session Manager state: the current handle (identified by its
launch number), the completed-request counter and a monotone launch counter
giving every launched browser a distinct identity. -/
structure BrowserState where
  browser : Option Nat
  requestCount : Nat
  launches : Nat
deriving DecidableEq

def initBrowserState : BrowserState :=
  { browser := none, requestCount := 0, launches := 0 }

/-- `getBrowser()` from the queue-based revisions: with a live handle and
`requestCount >= 6`, close it (the close is wrapped in try/catch, so
`closeFails` has no effect on the state), clear the handle and reset the
counter; then launch when no handle exists. A failing launch rethrows,
leaving no handle, so the result carries no handle either. -/
def getBrowser (closeFails launchFails : Bool) (st : BrowserState) :
    BrowserState × Option Nat :=
  let st1 :=
    if st.browser.isSome && decide (6 ≤ st.requestCount) then
      { st with browser := none, requestCount := 0 }
    else st
  match st1.browser with
  | some h => (st1, some h)
  | none =>
    if launchFails then (st1, none)
    else ({ st1 with browser := some st1.launches, launches := st1.launches + 1 },
          some st1.launches)

/-- Event-loop state of the serial execution queue, with ghost history fields
recording submissions, handler starts and settlements together with their
times (milliseconds). -/
structure QState where
  isProcessing : Bool
  queue : List Nat
  running : Option Nat
  pendingTimers : List Nat
  now : Nat
  submittedList : List Nat
  startedList : List Nat
  startTimes : List (Nat × Nat)
  settledList : List (Nat × Bool)
  settleTimes : List (Nat × Nat)
deriving DecidableEq

def initQState : QState :=
  { isProcessing := false, queue := [], running := none, pendingTimers := [], now := 0,
    submittedList := [], startedList := [], startTimes := [], settledList := [],
    settleTimes := [] }

/-- The synchronous body of `processQueue()`: return unless idle and
non-empty; otherwise shift the first job, set `isProcessing` and start its
handler (recorded in the ghost start history). The check and the flag update
happen in one synchronous segment of the single-threaded event loop, hence in
one atomic step here. -/
def procQ (t : Nat) (s : QState) : QState :=
  if s.isProcessing then s
  else
    match s.queue with
    | [] => s
    | j :: rest =>
      { s with isProcessing := true, queue := rest, running := some j,
               startedList := s.startedList ++ [j], startTimes := s.startTimes ++ [(j, t)] }

/-- `queueRequest(handler)` at time `t`: push the job and synchronously call
`processQueue()`. -/
def submitStep (j t : Nat) (s : QState) : QState :=
  procQ t { s with queue := s.queue ++ [j], submittedList := s.submittedList ++ [j], now := t }

/-- The running handler settles at time `t` with outcome `ok` (`resolve` on
success, `reject` on a thrown error); the `finally` block then clears
`isProcessing` and schedules `setTimeout(processQueue, 1500)`. -/
def finishStep (ok : Bool) (t : Nat) (s : QState) : QState :=
  match s.running with
  | none => s
  | some j =>
    { s with running := none, isProcessing := false,
             settledList := s.settledList ++ [(j, ok)],
             settleTimes := s.settleTimes ++ [(j, t)],
             pendingTimers := s.pendingTimers ++ [t + 1500], now := t }

/-- A scheduled `processQueue` callback due at `d` fires at time `t`. -/
def fireStep (d t : Nat) (s : QState) : QState :=
  procQ t { s with pendingTimers := s.pendingTimers.erase d, now := t }

/-- Legal single steps of the event loop: submissions carry fresh job ids and
time never decreases; a handler can settle only while one is running; a timer
can fire only once scheduled and due. -/
inductive QueueStep : QState → QState → Prop
  | submit (s : QState) (j t : Nat) (hfresh : j ∉ s.submittedList) (ht : s.now ≤ t) :
      QueueStep s (submitStep j t s)
  | finish (s : QState) (ok : Bool) (t : Nat) (hrun : s.running.isSome) (ht : s.now ≤ t) :
      QueueStep s (finishStep ok t s)
  | fire (s : QState) (d t : Nat) (hd : d ∈ s.pendingTimers) (ht : s.now ≤ t)
      (hdue : d ≤ t) : QueueStep s (fireStep d t s)

/-- States reachable from the initial queue state by legal steps. -/
inductive QReachable : QState → Prop
  | init : QReachable initQState
  | step {s s' : QState} : QReachable s → QueueStep s s' → QReachable s'

/-- Job `a` occurs strictly before job `b` in the list `l`. -/
def listBefore (a b : Nat) (l : List Nat) : Prop :=
  ∃ i j, i < j ∧ l.get? i = some a ∧ l.get? j = some b

/-- Invariants of the serial queue event loop, proved preserved by every step:
the flag mirrors the running job; the queue holds exactly the submitted jobs
not yet started, in submission order; the started jobs are exactly the settled
jobs, in settlement order, plus at most the one running job; submitted ids are
distinct; every pending cooldown timer is due exactly 1500 ms after some
recorded settlement; the time ghost maps cover settlements and starts. -/
def qInv (s : QState) : Prop :=
  s.isProcessing = s.running.isSome ∧
  s.submittedList = s.startedList ++ s.queue ∧
  s.startedList = s.settledList.map Prod.fst ++ s.running.toList ∧
  s.submittedList.Nodup ∧
  (∀ d ∈ s.pendingTimers, ∃ a ta, (a, ta) ∈ s.settleTimes ∧ d = ta + 1500) ∧
  s.settleTimes.map Prod.fst = s.settledList.map Prod.fst ∧
  s.startTimes.map Prod.fst = s.startedList

/-- Control skeleton of the `/api/horas` queued handler around `requestCount`:
a navigation failure throws (the error propagates to `queueRequest`), a failed
especialidad or profesional selection returns the structured failure before
the counter update, and only the path that completes extraction increments
the counter. -/
def horasQueuedHandler (navOk espClicked profClicked : Bool) (body : List Char) (rc : Nat) :
    Nat × Except (List Char) (WorkResult (List HoraOut)) :=
  if !navOk then (rc, .error "navigation error".data)
  else if !espClicked then (rc, .ok (.softFail "No se pudo seleccionar la especialidad".data))
  else if !profClicked then (rc, .ok (.softFail "No se pudo seleccionar el profesional".data))
  else (rc + 1, .ok (.ok (uniqueHoras body)))

/-- Control skeleton of the `/api/especialidades` queued handler: the counter
increments exactly when navigation and extraction complete without a thrown
error (an empty extraction result still counts as a success). -/
def especialidadesQueuedHandler (navOk : Bool) (found : List (List Char)) (rc : Nat) :
    Nat × Except (List Char) (WorkResult (List (List Char))) :=
  if !navOk then (rc, .error "navigation error".data)
  else (rc + 1, .ok (.ok found))
/-- The list has no leading whitespace character. -/
def noLeadWs : List Char → Bool
  | [] => true
  | c :: _ => !isWs c

/-- The list has no trailing whitespace character. -/
def noTrailWs : List Char → Bool
  | [] => true
  | [c] => !isWs c
  | _ :: d :: rest => noTrailWs (d :: rest)

/-- Every whitespace character in the list is a single space not followed by
further whitespace (the shape `.replace(/\s+/g,' ')` produces). -/
def adjOk : List Char → Bool
  | [] => true
  | [c] => !isWs c || c == ' '
  | c :: d :: rest => (!isWs c || (c == ' ' && !isWs d)) && adjOk (d :: rest)

/-- The rendered body text of the specification's time-slot example. -/
def horasExampleBody : List Char :=
  "09:00 DISPONIBLE\n09:00 DISPONIBLE\n10:30 OCUPADO".data

/-- A rendered line with an HH:MM match and no explicit taken marker. -/
def horasUnknownBody : List Char :=
  "11:15".data

/-- The rendered body text of the specification's practitioner example. -/
def profExampleBody : List Char :=
  "Dr. Ana Lopez\nEspecialidad: Kinesiología\nSucursal: Centro".data

/-- Body text with two practitioner names that agree after normalization but
differ in case and accents. -/
def profAccentBody : List Char :=
  "Dr. ÁNA\nEspecialidad: X\ndr. ána\nEspecialidad: Y".data

/-- Trace refuting the universal cooldown: job 0 submitted at 0 ms and settled
at 100 ms; job 1 submitted at 200 ms, while the queue is idle and the 1600 ms
cooldown timer is still pending, so `processQueue` starts it immediately. -/
def cooldownCexState : QState :=
  submitStep 1 200 (finishStep true 100 (submitStep 0 0 initQState))

/-- Trace for the serial-queue witness: job 0 submitted at 0 ms (starts at
once), job 1 submitted at 50 ms while 0 runs, job 0 settles at 100 ms, the
cooldown timer fires at 1600 ms starting job 1, which settles at 1700 ms. -/
def queueWitnessState : QState :=
  finishStep true 1700
    (fireStep 1600 1600 (finishStep true 100 (submitStep 1 50 (submitStep 0 0 initQState))))

/-- Trace for the failure-semantics witness: job 0 is running and will reject. -/
def queueFailState : QState :=
  submitStep 1 50 (submitStep 0 0 initQState)
theorem jsLower_cases (c : Char) :
    jsLower c = c ∨ jsLower c ∈ "abcdefghijklmnopqrstuvwxyz".data := by
  unfold jsLower
  split
  all_goals first
    | exact Or.inl rfl
    | exact Or.inr (by decide)

theorem clean_of_lowercase (c : Char) (h : c ∈ "abcdefghijklmnopqrstuvwxyz".data) :
    accentBase c = none ∧ isDiacritic c = false ∧ jsLower c = c := by
  fin_cases h <;> exact ⟨rfl, rfl, rfl⟩

theorem jsLower_jsLower (c : Char) : jsLower (jsLower c) = jsLower c := by
  rcases jsLower_cases c with h | h
  · rw [h]; exact h
  · exact (clean_of_lowercase _ h).2.2

theorem accentBase_jsLower (c : Char) (h : accentBase c = none) :
    accentBase (jsLower c) = none := by
  rcases jsLower_cases c with h2 | h2
  · rw [h2]; exact h
  · exact (clean_of_lowercase _ h2).1

theorem isDiacritic_jsLower (c : Char) (h : isDiacritic c = false) :
    isDiacritic (jsLower c) = false := by
  rcases jsLower_cases c with h2 | h2
  · rw [h2]; exact h
  · exact (clean_of_lowercase _ h2).2.1

theorem accentBase_spec (c : Char) (p : Char × Char) (h : accentBase c = some p) :
    isDiacritic p.2 = true ∧ accentBase (jsLower p.1) = none ∧
      isDiacritic (jsLower p.1) = false ∧ jsLower (jsLower p.1) = jsLower p.1 := by
  unfold accentBase at h
  split at h
  all_goals first
    | exact Option.noConfusion h
    | (injection h with h2; subst h2; exact ⟨rfl, rfl, rfl, rfl⟩)

theorem decomp_clean (c d : Char) (hd : d ∈ decomp c) (hnd : isDiacritic d = false) :
    accentBase (jsLower d) = none ∧ isDiacritic (jsLower d) = false ∧
      jsLower (jsLower d) = jsLower d := by
  unfold decomp at hd
  cases hab : accentBase c with
  | none =>
    rw [hab] at hd
    simp only [List.mem_singleton] at hd
    subst hd
    exact ⟨accentBase_jsLower _ hab, isDiacritic_jsLower _ hnd, jsLower_jsLower _⟩
  | some p =>
    rw [hab] at hd
    obtain ⟨hdia, h1, h2, h3⟩ := accentBase_spec c p hab
    simp only [List.mem_cons, List.mem_singleton, List.not_mem_nil, or_false] at hd
    rcases hd with rfl | rfl
    · exact ⟨h1, h2, h3⟩
    · rw [hdia] at hnd; cases hnd
theorem mem_trimRight {x : Char} : ∀ {l : List Char}, x ∈ trimRight l → x ∈ l := by
  intro l
  induction l with
  | nil => simp [trimRight]
  | cons c rest ih =>
    intro hx
    cases h : trimRight rest with
    | nil =>
      simp only [trimRight, h] at hx
      by_cases hw : isWs c
      · simp [hw] at hx
      · simp [hw] at hx; simp [hx]
    | cons r rs =>
      simp only [trimRight, h] at hx
      rcases List.mem_cons.mp hx with rfl | hx2
      · exact List.mem_cons_self _ _
      · exact List.mem_cons_of_mem _ (ih (by rw [h]; exact hx2))

theorem mem_dropWhile {x : Char} {p : Char → Bool} :
    ∀ {l : List Char}, x ∈ l.dropWhile p → x ∈ l := by
  intro l
  induction l with
  | nil => simp
  | cons c rest ih =>
    intro hx
    rw [List.dropWhile_cons] at hx
    by_cases hw : p c
    · rw [if_pos hw] at hx; exact List.mem_cons_of_mem _ (ih hx)
    · rw [if_neg hw] at hx; exact hx

theorem mem_trimStr {x : Char} {l : List Char} (h : x ∈ trimStr l) : x ∈ l :=
  mem_dropWhile (mem_trimRight h)

theorem mem_collapseWs {x : Char} : ∀ {l : List Char}, x ∈ collapseWs l → x ∈ l ∨ x = ' ' := by
  intro l
  induction l using collapseWs.induct with
  | case1 => simp [collapseWs]
  | case2 c hw =>
    intro hx
    simp [collapseWs, hw] at hx
    exact Or.inr hx
  | case3 c hw =>
    intro hx
    simp [collapseWs, hw] at hx
    exact Or.inl (by simp [hx])
  | case4 c d rest hcond ih =>
    intro hx
    rw [collapseWs, if_pos hcond] at hx
    rcases ih hx with h2 | h2
    · exact Or.inl (List.mem_cons_of_mem _ h2)
    · exact Or.inr h2
  | case5 c d rest hcond ih =>
    intro hx
    rw [collapseWs, if_neg hcond] at hx
    rcases List.mem_cons.mp hx with h2 | h2
    · by_cases hw : isWs c
      · simp [hw] at h2; exact Or.inr h2
      · simp [hw] at h2; exact Or.inl (by simp [h2])
    · rcases ih h2 with h3 | h3
      · exact Or.inl (List.mem_cons_of_mem _ h3)
      · exact Or.inr h3

theorem dropWhile_noLead (l : List Char) : noLeadWs (l.dropWhile isWs) = true := by
  induction l with
  | nil => rfl
  | cons c t ih =>
    rw [List.dropWhile_cons]
    by_cases h : isWs c
    · simp [h, ih]
    · simp [h, noLeadWs]

theorem dropWhile_eq_self_of_noLead {l : List Char} (h : noLeadWs l = true) :
    l.dropWhile isWs = l := by
  cases l with
  | nil => rfl
  | cons c t =>
    simp only [noLeadWs, Bool.not_eq_true'] at h
    simp [List.dropWhile_cons, h]

theorem trimRight_eq_self : ∀ {l : List Char}, noTrailWs l = true → trimRight l = l := by
  intro l
  induction l with
  | nil => intro _; rfl
  | cons c rest ih =>
    intro h
    cases rest with
    | nil =>
      simp only [noTrailWs, Bool.not_eq_true'] at h
      simp [trimRight, h]
    | cons d rs =>
      have h' : noTrailWs (d :: rs) = true := h
      have veq := ih h'
      simp only [trimRight] at veq ⊢
      rw [veq]

theorem noTrail_trimRight (l : List Char) : noTrailWs (trimRight l) = true := by
  induction l with
  | nil => rfl
  | cons c rest ih =>
    simp only [trimRight]
    cases h : trimRight rest with
    | nil =>
      by_cases hw : isWs c <;> simp [hw, noTrailWs]
    | cons r rs =>
      rw [h] at ih
      exact ih

theorem noLead_trimRight : ∀ {l : List Char}, noLeadWs l = true → noLeadWs (trimRight l) = true := by
  intro l
  cases l with
  | nil => intro _; rfl
  | cons c rest =>
    intro h
    simp only [noLeadWs, Bool.not_eq_true'] at h
    simp only [trimRight]
    cases htr : trimRight rest with
    | nil => simp [h, noLeadWs]
    | cons r rs => simp [noLeadWs, h]

theorem collapseWs_ne_nil : ∀ {l : List Char}, l ≠ [] → collapseWs l ≠ [] := by
  intro l
  induction l using collapseWs.induct with
  | case1 => intro h; exact absurd rfl h
  | case2 c hw =>
    intro _
    simp [collapseWs, hw]
  | case3 c hw =>
    intro _
    simp [collapseWs, hw]
  | case4 c d rest hcond ih =>
    intro _
    rw [collapseWs, if_pos hcond]
    exact ih (by simp)
  | case5 c d rest hcond ih =>
    intro _
    rw [collapseWs, if_neg hcond]
    simp

theorem collapseWs_cons_of_not_ws {d : Char} (r : List Char) (h : isWs d = false) :
    ∃ ys, collapseWs (d :: r) = d :: ys := by
  cases r with
  | nil => exact ⟨[], by simp [collapseWs, h]⟩
  | cons e r' =>
    refine ⟨collapseWs (e :: r'), ?_⟩
    simp [collapseWs, h]

theorem collapseWs_noLead : ∀ {l : List Char}, noLeadWs l = true → noLeadWs (collapseWs l) = true := by
  intro l
  cases l with
  | nil => intro _; rfl
  | cons c rest =>
    intro h
    simp only [noLeadWs, Bool.not_eq_true'] at h
    obtain ⟨ys, hys⟩ := collapseWs_cons_of_not_ws rest h
    rw [hys]
    simp [noLeadWs, h]
theorem collapseWs_noTrail : ∀ {l : List Char}, noTrailWs l = true → noTrailWs (collapseWs l) = true := by
  intro l
  induction l using collapseWs.induct with
  | case1 => intro _; rfl
  | case2 c hw =>
    intro h
    simp only [noTrailWs, Bool.not_eq_true'] at h
    rw [h] at hw; cases hw
  | case3 c hw =>
    intro _
    simp only [Bool.not_eq_true] at hw
    simp [collapseWs, hw, noTrailWs]
  | case4 c d rest hcond ih =>
    intro h
    rw [collapseWs, if_pos hcond]
    exact ih h
  | case5 c d rest hcond ih =>
    intro h
    rw [collapseWs, if_neg hcond]
    have htail : noTrailWs (d :: rest) = true := h
    have hx := ih htail
    obtain ⟨y, ys, hys⟩ : ∃ y ys, collapseWs (d :: rest) = y :: ys := by
      cases hcw : collapseWs (d :: rest) with
      | nil => exact absurd hcw (collapseWs_ne_nil (by simp))
      | cons y ys => exact ⟨y, ys, rfl⟩
    rw [hys]
    rw [hys] at hx
    exact hx

theorem collapseWs_adjOk : ∀ (l : List Char), adjOk (collapseWs l) = true := by
  intro l
  induction l using collapseWs.induct with
  | case1 => rfl
  | case2 c hw => simp [collapseWs, hw, adjOk]
  | case3 c hw =>
    simp only [Bool.not_eq_true] at hw
    simp [collapseWs, hw, adjOk]
  | case4 c d rest hcond ih =>
    rw [collapseWs, if_pos hcond]
    exact ih
  | case5 c d rest hcond ih =>
    rw [collapseWs, if_neg hcond]
    by_cases hwc : isWs c
    · -- the emitted character is a space and `d` is not whitespace
      have hwd : isWs d = false := by
        by_contra hd2
        simp only [Bool.not_eq_false] at hd2
        exact hcond (by rw [hwc, hd2]; rfl)
      obtain ⟨ys, hys⟩ := collapseWs_cons_of_not_ws rest hwd
      rw [if_pos hwc, hys]
      rw [hys] at ih
      simp only [adjOk] at ih ⊢
      simp [hwd, ih]
    · simp only [Bool.not_eq_true] at hwc
      rw [if_neg (by rw [hwc]; simp)]
      cases hcw : collapseWs (d :: rest) with
      | nil => simp [adjOk, hwc]
      | cons y ys =>
        rw [hcw] at ih
        simp only [adjOk] at ih ⊢
        simp [hwc, ih]

theorem collapseWs_eq_self : ∀ {l : List Char}, adjOk l = true → collapseWs l = l := by
  intro l
  induction l using collapseWs.induct with
  | case1 => intro _; rfl
  | case2 c hw =>
    intro h
    simp only [adjOk, hw] at h
    simp only [Bool.not_true, Bool.false_or, beq_iff_eq] at h
    simp [collapseWs, hw, h]
  | case3 c hw =>
    intro _
    simp only [Bool.not_eq_true] at hw
    simp [collapseWs, hw]
  | case4 c d rest hcond ih =>
    intro h
    simp only [adjOk] at h
    rw [Bool.and_eq_true] at h
    obtain ⟨h1, _⟩ := h
    rw [Bool.and_eq_true] at hcond
    obtain ⟨hc, hd⟩ := hcond
    rw [hc] at h1
    simp only [Bool.not_true, Bool.false_or, Bool.and_eq_true, beq_iff_eq,
      Bool.not_eq_true'] at h1
    rw [h1.2] at hd
    cases hd
  | case5 c d rest hcond ih =>
    intro h
    simp only [adjOk] at h
    rw [Bool.and_eq_true] at h
    obtain ⟨h1, h2⟩ := h
    rw [collapseWs, if_neg hcond, ih h2]
    by_cases hwc : isWs c
    · rw [hwc] at h1
      simp only [Bool.not_true, Bool.false_or, Bool.and_eq_true, beq_iff_eq] at h1
      rw [if_pos hwc, h1.1]
    · simp only [Bool.not_eq_true] at hwc
      rw [if_neg (by rw [hwc]; simp)]
theorem flatMap_decomp_eq_self : ∀ {l : List Char}, (∀ c ∈ l, decomp c = [c]) →
    l.flatMap decomp = l := by
  intro l
  induction l with
  | nil => intro _; rfl
  | cons c t ih =>
    intro h
    rw [List.flatMap_cons, h c (List.mem_cons_self _ _),
      ih (fun d hd => h d (List.mem_cons_of_mem _ hd))]
    rfl

theorem filter_diacritic_eq_self : ∀ {l : List Char}, (∀ c ∈ l, isDiacritic c = false) →
    l.filter (fun c => !isDiacritic c) = l := by
  intro l
  induction l with
  | nil => intro _; rfl
  | cons c t ih =>
    intro h
    rw [List.filter_cons]
    rw [if_pos (by rw [h c (List.mem_cons_self _ _)]; rfl)]
    rw [ih (fun d hd => h d (List.mem_cons_of_mem _ hd))]

theorem map_jsLower_eq_self : ∀ {l : List Char}, (∀ c ∈ l, jsLower c = c) →
    l.map jsLower = l := by
  intro l
  induction l with
  | nil => intro _; rfl
  | cons c t ih =>
    intro h
    rw [List.map_cons, h c (List.mem_cons_self _ _),
      ih (fun d hd => h d (List.mem_cons_of_mem _ hd))]

/-- C7: the text normalizer is idempotent on every input string:
`normalize(normalize(s)) = normalize(s)`. -/
theorem normalizeStringNode_idempotent (l : List Char) :
    normalizeStringNode (normalizeStringNode l) = normalizeStringNode l := by
  by_cases h0 : l = []
  · subst h0; rfl
  · have hnl : normalizeStringNode l =
        collapseWs (trimStr (((l.flatMap decomp).filter (fun c => !isDiacritic c)).map jsLower)) := by
      rw [normalizeStringNode, if_neg h0]
    by_cases ht0 : normalizeStringNode l = []
    · rw [ht0]; rfl
    · -- every character of the first normalization is immune to every stage
      have hclean : ∀ c ∈ normalizeStringNode l,
          accentBase c = none ∧ isDiacritic c = false ∧ jsLower c = c := by
        intro c hc
        rw [hnl] at hc
        rcases mem_collapseWs hc with hc2 | hc2
        · have hc3 := mem_trimStr hc2
          obtain ⟨d, hd, rfl⟩ := List.mem_map.mp hc3
          have hd2 := List.mem_filter.mp hd
          obtain ⟨e, _, hde⟩ := List.mem_flatMap.mp hd2.1
          have hdnd : isDiacritic d = false := by
            have := hd2.2
            simpa using this
          exact decomp_clean e d hde hdnd
        · subst hc2; exact ⟨rfl, rfl, rfl⟩
      have h1 : (normalizeStringNode l).flatMap decomp = normalizeStringNode l :=
        flatMap_decomp_eq_self (fun c hc => by
          rw [decomp, (hclean c hc).1])
      have h2 : (normalizeStringNode l).filter (fun c => !isDiacritic c) = normalizeStringNode l :=
        filter_diacritic_eq_self (fun c hc => (hclean c hc).2.1)
      have h3 : (normalizeStringNode l).map jsLower = normalizeStringNode l :=
        map_jsLower_eq_self (fun c hc => (hclean c hc).2.2)
      have hlead : noLeadWs (normalizeStringNode l) = true := by
        rw [hnl]
        exact collapseWs_noLead (noLead_trimRight (dropWhile_noLead _))
      have htrail : noTrailWs (normalizeStringNode l) = true := by
        rw [hnl]
        exact collapseWs_noTrail (noTrail_trimRight _)
      have hadj : adjOk (normalizeStringNode l) = true := by
        rw [hnl]; exact collapseWs_adjOk _
      have h4 : trimStr (normalizeStringNode l) = normalizeStringNode l := by
        rw [trimStr, dropWhile_eq_self_of_noLead hlead, trimRight_eq_self htrail]
      conv_lhs => rw [normalizeStringNode, if_neg ht0, h1, h2, h3, h4,
        collapseWs_eq_self hadj]

/-- C8: the normalizer maps the three spellings of the specialty label to one
canonical string (diacritics stripped, lower-cased, trimmed, whitespace
collapsed), and on null or empty input it returns the empty string. -/
theorem normalizeStringNode_canonical :
    normalizeStringNode "Kinesiología".data = normalizeStringNode "kinesiologia".data ∧
    normalizeStringNode "Kinesiología".data = normalizeStringNode "  KINESIOLOGÍA  ".data ∧
    normalizeStringNode "Kinesiología".data = "kinesiologia".data ∧
    normalizeStringNodeOpt none = [] ∧
    normalizeStringNode [] = [] := by
  refine ⟨by decide, by decide, by decide, rfl, rfl⟩
theorem dedupeHoras_mem : ∀ (l : List HoraOut) (seen : List (List Char)),
    ∀ s ∈ dedupeHoras seen l, s ∈ l := by
  intro l
  induction l with
  | nil => intro seen s hs; simp [dedupeHoras] at hs
  | cons h t ih =>
    intro seen s hs
    simp only [dedupeHoras] at hs
    by_cases hin : h.hora ∈ seen
    · rw [if_pos hin] at hs
      exact List.mem_cons_of_mem _ (ih seen s hs)
    · rw [if_neg hin] at hs
      rcases List.mem_cons.mp hs with rfl | hs2
      · exact List.mem_cons_self _ _
      · exact List.mem_cons_of_mem _ (ih _ s hs2)

theorem dedupeHoras_keys : ∀ (l : List HoraOut) (seen : List (List Char)),
    ((dedupeHoras seen l).map HoraOut.hora).Nodup ∧
      ∀ k ∈ (dedupeHoras seen l).map HoraOut.hora, k ∉ seen := by
  intro l
  induction l with
  | nil => intro seen; constructor <;> simp [dedupeHoras]
  | cons h t ih =>
    intro seen
    simp only [dedupeHoras]
    by_cases hin : h.hora ∈ seen
    · rw [if_pos hin]
      exact ih seen
    · rw [if_neg hin]
      obtain ⟨ihn, ihk⟩ := ih (h.hora :: seen)
      constructor
      · rw [List.map_cons, List.nodup_cons]
        refine ⟨fun hmem => ?_, ihn⟩
        exact (ihk _ hmem) (List.mem_cons_self _ _)
      · intro k hk
        rcases List.mem_cons.mp hk with rfl | hk2
        · exact hin
        · exact fun hks => (ihk _ hk2) (List.mem_cons_of_mem _ hks)

theorem dedupeHoras_sublist : ∀ (l : List HoraOut) (seen : List (List Char)),
    (dedupeHoras seen l).Sublist l := by
  intro l
  induction l with
  | nil => intro seen; simp [dedupeHoras]
  | cons h t ih =>
    intro seen
    simp only [dedupeHoras]
    by_cases hin : h.hora ∈ seen
    · rw [if_pos hin]
      exact (ih seen).cons _
    · rw [if_neg hin]
      exact (ih (h.hora :: seen)).cons₂ _

theorem dedupeHoras_find : ∀ (l : List HoraOut) (seen : List (List Char)) (k : List Char),
    k ∉ seen →
      (dedupeHoras seen l).find? (fun s => s.hora == k) =
        l.find? (fun s => s.hora == k) := by
  intro l
  induction l with
  | nil => intro seen k _; rfl
  | cons h t ih =>
    intro seen k hk
    simp only [dedupeHoras]
    by_cases hin : h.hora ∈ seen
    · rw [if_pos hin]
      have hne : (h.hora == k) = false := by
        simp only [beq_eq_false_iff_ne, ne_eq]
        intro he; rw [he] at hin; exact hk hin
      rw [List.find?_cons, hne]
      exact ih seen k hk
    · rw [if_neg hin]
      by_cases heq : h.hora = k
      · have : (h.hora == k) = true := by simp [heq]
        rw [List.find?_cons, this, List.find?_cons, this]
      · have hne : (h.hora == k) = false := by simp [heq]
        rw [List.find?_cons, hne, List.find?_cons, hne]
        refine ih _ k (fun hmem => ?_)
        rcases List.mem_cons.mp hmem with he | hmem2
        · exact heq he.symm
        · exact hk hmem2
/-- C2: on the example rendered text the time-slot extractor returns exactly
one slot 09:00/DISPONIBLE (duplicate collapsed) and no slot for the occupied
10:30; a line with an HH:MM match and no explicit taken marker counts as
available; in general only slots classified as available are returned,
de-duplicated by clock-time string with the first occurrence winning. -/
theorem horas_extraction_spec :
    uniqueHoras horasExampleBody =
      [{ hora := "09:00".data, estado := "DISPONIBLE".data }] ∧
    uniqueHoras horasUnknownBody =
      [{ hora := "11:15".data, estado := "DESCONOCIDO".data }] ∧
    (∀ body : List Char, ∀ s ∈ uniqueHoras body, s ∈ horasDisponibles body) ∧
    (∀ body : List Char, ((uniqueHoras body).map HoraOut.hora).Nodup) ∧
    (∀ body : List Char, (uniqueHoras body).Sublist (horasDisponibles body)) ∧
    (∀ body k : List Char,
      (uniqueHoras body).find? (fun s => s.hora == k) =
        (horasDisponibles body).find? (fun s => s.hora == k)) := by
  refine ⟨by decide, by decide, ?_, ?_, ?_, ?_⟩
  · intro body s hs
    exact dedupeHoras_mem _ [] s hs
  · intro body
    exact (dedupeHoras_keys _ []).1
  · intro body
    exact dedupeHoras_sublist _ []
  · intro body k
    exact dedupeHoras_find _ [] k (by simp)

/-- Witness for C2: the returned 09:00 slot is indeed one of the slots the
code classified as available. -/
theorem horas_extraction_spec_witness :
    ({ hora := "09:00".data, estado := "DISPONIBLE".data } : HoraOut) ∈
      horasDisponibles horasExampleBody :=
  horas_extraction_spec.2.2.1 horasExampleBody _ (by decide)

theorem dedupeProf_keys : ∀ (l : List ProfRec) (seen : List (List Char)),
    ((dedupeProf seen l).map ProfOut.nombre).Nodup ∧
      ∀ k ∈ (dedupeProf seen l).map ProfOut.nombre, k ∉ seen := by
  intro l
  induction l with
  | nil => intro seen; constructor <;> simp [dedupeProf]
  | cons p t ih =>
    intro seen
    simp only [dedupeProf]
    by_cases h0 : trimStr p.nombre = []
    · rw [if_pos h0]
      exact ih seen
    · rw [if_neg h0]
      by_cases hin : trimStr p.nombre ∈ seen
      · rw [if_pos hin]
        exact ih seen
      · rw [if_neg hin]
        obtain ⟨ihn, ihk⟩ := ih (trimStr p.nombre :: seen)
        constructor
        · rw [List.map_cons, List.nodup_cons]
          refine ⟨fun hmem => ?_, ihn⟩
          exact (ihk _ hmem) (List.mem_cons_self _ _)
        · intro k hk
          rcases List.mem_cons.mp hk with rfl | hk2
          · exact hin
          · exact fun hks => (ihk _ hk2) (List.mem_cons_of_mem _ hks)

theorem dedupeProf_sublist : ∀ (l : List ProfRec) (seen : List (List Char)),
    ((dedupeProf seen l).map ProfOut.nombre).Sublist
      (l.map (fun p => trimStr p.nombre)) := by
  intro l
  induction l with
  | nil => intro seen; simp [dedupeProf]
  | cons p t ih =>
    intro seen
    simp only [dedupeProf, List.map_cons]
    by_cases h0 : trimStr p.nombre = []
    · rw [if_pos h0]
      exact (ih seen).cons _
    · rw [if_neg h0]
      by_cases hin : trimStr p.nombre ∈ seen
      · rw [if_pos hin]
        exact (ih seen).cons _
      · rw [if_neg hin]
        rw [List.map_cons]
        exact (ih (trimStr p.nombre :: seen)).cons₂ _

theorem dedupeProf_find : ∀ (l : List ProfRec) (seen : List (List Char)) (k : List Char),
    k ∉ seen → k ≠ [] →
      (dedupeProf seen l).find? (fun p => p.nombre == k) =
        (l.find? (fun p => trimStr p.nombre == k)).map
          (fun p => { nombre := k, value := k, especialidad := p.especialidad,
                      sucursal := none }) := by
  intro l
  induction l with
  | nil => intro seen k _ _; rfl
  | cons p t ih =>
    intro seen k hk hne
    simp only [dedupeProf]
    by_cases h0 : trimStr p.nombre = []
    · rw [if_pos h0]
      have hf : (trimStr p.nombre == k) = false := by
        simp only [beq_eq_false_iff_ne, ne_eq, h0]
        exact fun he => hne he.symm
      rw [List.find?_cons, hf]
      exact ih seen k hk hne
    · rw [if_neg h0]
      by_cases hin : trimStr p.nombre ∈ seen
      · rw [if_pos hin]
        have hf : (trimStr p.nombre == k) = false := by
          simp only [beq_eq_false_iff_ne, ne_eq]
          intro he; rw [he] at hin; exact hk hin
        rw [List.find?_cons, hf]
        exact ih seen k hk hne
      · rw [if_neg hin]
        by_cases heq : trimStr p.nombre = k
        · have ht : (trimStr p.nombre == k) = true := by simp [heq]
          simp only [List.find?_cons, ht]
          simp [heq]
        · have hf : (trimStr p.nombre == k) = false := by simp [heq]
          have hrec := ih (trimStr p.nombre :: seen) k
            (fun hmem => by
              rcases List.mem_cons.mp hmem with he | hmem2
              · exact heq he.symm
              · exact hk hmem2) hne
          simp only [List.find?_cons, hf]
          exact hrec
/-- Counterexample for C5: (a) on the specification's example the single
returned practitioner carries no branch at all — the dedupe loop rebuilds the
record without a `sucursal` key, so the output is not the claimed record with
branch Centro; (b) the list is not de-duplicated by normalized name: two
names that agree after normalization but differ in case and accents are both
returned. -/
theorem profesionales_extraction_cex :
    ((extractProfesionales profExampleBody).map ProfOut.sucursal = [none]) ∧
    (extractProfesionales profExampleBody ≠
      [{ nombre := "Dr. Ana Lopez".data, value := "Dr. Ana Lopez".data,
         especialidad := "Kinesiología".data, sucursal := some "Centro".data }]) ∧
    ((extractProfesionales profAccentBody).map (fun p => normalizeStringNode p.nombre) =
      ["dr. ana".data, "dr. ana".data]) := by
  refine ⟨by decide, by decide, by decide⟩

/-- C5 amended: on the example lines the extractor returns exactly one
practitioner named Dr. Ana Lopez with specialty Kinesiología; the Sucursal
line is parsed into the raw record but dropped by the dedupe step, whose
output has no branch field; the list is de-duplicated by exact trimmed name
(not by normalized name), preserving first-seen order, with each kept entry
taking its data from the first raw record bearing that trimmed name. -/
theorem profesionales_extraction_amended :
    (extractProfesionales profExampleBody =
      [{ nombre := "Dr. Ana Lopez".data, value := "Dr. Ana Lopez".data,
         especialidad := "Kinesiología".data, sucursal := none }]) ∧
    ((profRaw profExampleBody).map ProfRec.sucursal = ["Centro".data]) ∧
    (∀ l : List ProfRec, ((dedupeProf [] l).map ProfOut.nombre).Nodup) ∧
    (∀ l : List ProfRec,
      ((dedupeProf [] l).map ProfOut.nombre).Sublist (l.map (fun p => trimStr p.nombre))) ∧
    (∀ (l : List ProfRec) (k : List Char), k ≠ [] →
      (dedupeProf [] l).find? (fun p => p.nombre == k) =
        (l.find? (fun p => trimStr p.nombre == k)).map
          (fun p => { nombre := k, value := k, especialidad := p.especialidad,
                      sucursal := none })) := by
  refine ⟨by decide, by decide, ?_, ?_, ?_⟩
  · intro l
    exact (dedupeProf_keys l []).1
  · intro l
    exact dedupeProf_sublist l []
  · intro l k hne
    exact dedupeProf_find l [] k (by simp) hne

/-- Witness for C5 (amended): instantiating the first-occurrence property at
the example body and the key Dr. Ana Lopez. -/
theorem profesionales_extraction_amended_witness :
    (dedupeProf [] (profRaw profExampleBody)).find?
        (fun p => p.nombre == "Dr. Ana Lopez".data) =
      ((profRaw profExampleBody).find?
          (fun p => trimStr p.nombre == "Dr. Ana Lopez".data)).map
        (fun p => { nombre := "Dr. Ana Lopez".data, value := "Dr. Ana Lopez".data,
                    especialidad := p.especialidad, sucursal := none }) :=
  profesionales_extraction_amended.2.2.2.2 (profRaw profExampleBody)
    "Dr. Ana Lopez".data (by decide)
/-- C3: once the completed-request counter has reached the recycle threshold 6,
the next `getBrowser()` closes the existing handle (whether or not the close
fails), resets the counter to zero, and returns a newly launched handle
distinct from the prior one; below the threshold it is idempotent, returning
the existing live handle without relaunching. -/
theorem browser_recycle_at_threshold :
    (∀ (st : BrowserState) (h : Nat) (closeFails : Bool),
      st.browser = some h → 6 ≤ st.requestCount → h < st.launches →
        getBrowser closeFails false st =
          ({ browser := some st.launches, requestCount := 0, launches := st.launches + 1 },
            some st.launches) ∧
          st.launches ≠ h) ∧
    (∀ (st : BrowserState) (h : Nat) (closeFails launchFails : Bool),
      st.browser = some h → st.requestCount < 6 →
        getBrowser closeFails launchFails st = (st, some h)) := by
  constructor
  · intro st h closeFails hb hcnt hlt
    refine ⟨?_, Nat.ne_of_gt hlt⟩
    simp [getBrowser, hb, hcnt]
  · intro st h closeFails launchFails hb hcnt
    simp [getBrowser, hb, Nat.not_le.mpr hcnt]

/-- Witness for C3: a browser launched as handle 0 with 6 completed requests
is recycled into the distinct handle 1 with the counter reset; at 3 completed
requests the same handle 0 is returned and nothing is launched. -/
theorem browser_recycle_at_threshold_witness :
    (getBrowser false false { browser := some 0, requestCount := 6, launches := 1 } =
      ({ browser := some 1, requestCount := 0, launches := 2 }, some 1) ∧ (1 : Nat) ≠ 0) ∧
    getBrowser false false { browser := some 0, requestCount := 3, launches := 1 } =
      ({ browser := some 0, requestCount := 3, launches := 1 }, some 0) := by
  constructor
  · exact browser_recycle_at_threshold.1
      { browser := some 0, requestCount := 6, launches := 1 } 0 false rfl (by decide) (by decide)
  · exact browser_recycle_at_threshold.2
      { browser := some 0, requestCount := 3, launches := 1 } 0 false false rfl (by decide)
/-- Counterexample for C6: the cache does return payloads for requests whose
parameters differ from those under which they were stored. (a) The
especialidades cache is keyed by workflow type only: a payload scraped for
agenda kineyfisio and stored at 1000 ms is returned at 2000 ms to a request
for the different agenda cesmed. (b) The horas cache key omits the optional
fecha parameter: a payload stored for fecha 2024-01-01 is returned to a
request for fecha 2024-01-02. -/
theorem cache_parameter_cex :
    (especialidadesCacheCheck "cesmed".data 2000
        (setCache CacheType.especialidades [] 0 1000
          ({ agenda := "kineyfisio".data, total := 5 } : EspResponse)
          (initCache EspResponse)) =
      some { agenda := "kineyfisio".data, total := 5 }) ∧
    "cesmed".data ≠ "kineyfisio".data ∧
    (horasCacheCheck "kineyfisio".data "KINE".data "DR".data "2024-01-02".data 2000
        (setCache CacheType.horas (horasCacheKey "kineyfisio".data "KINE".data "DR".data)
          60000 1000 ({ fecha := "2024-01-01".data, horas := [] } : HorasResponse)
          (initCache HorasResponse)) =
      some { fecha := "2024-01-01".data, horas := [] }) ∧
    "2024-01-02".data ≠ "2024-01-01".data := by
  refine ⟨by decide, by decide, by decide, by decide⟩

/-- C6 amended: for both keyed caches (profesionales and horas), a get within
the stored entry's TTL returns exactly the payload of the most recent set for
that key, a get after the TTL or with no prior set misses, and sets for one
key or one workflow type never affect lookups under another key or type; the
especialidades cache however is keyed by workflow type only (shared across
agendas), and the horas key omits the optional fecha; failure results never
reach any of the caches. -/
theorem cache_contract_amended :
    (∀ (α : Type) (st : CacheState α) (key : List Char) (ttl t0 t1 : Nat) (d : α),
      0 < ttl → t1 - t0 < ttl →
        getCache CacheType.horas key 0 t1 (setCache CacheType.horas key ttl t0 d st) =
          some d) ∧
    (∀ (α : Type) (st : CacheState α) (key : List Char) (ttl t0 t1 : Nat) (d : α),
      0 < ttl → ttl ≤ t1 - t0 →
        getCache CacheType.horas key 0 t1 (setCache CacheType.horas key ttl t0 d st) =
          none) ∧
    (∀ (α : Type) (st : CacheState α) (key : List Char) (ttl t0 t1 : Nat) (d : α),
      0 < ttl → t1 - t0 < ttl →
        getCache CacheType.profesionales key 0 t1
          (setCache CacheType.profesionales key ttl t0 d st) = some d) ∧
    (∀ (α : Type) (st : CacheState α) (key : List Char) (ttl t0 t1 : Nat) (d : α),
      0 < ttl → ttl ≤ t1 - t0 →
        getCache CacheType.profesionales key 0 t1
          (setCache CacheType.profesionales key ttl t0 d st) = none) ∧
    (∀ (α : Type) (st : CacheState α) (key : List Char) (t0 t1 : Nat) (d : α),
      t1 - t0 < 1000 * 60 * 5 →
        getCache CacheType.profesionales key 0 t1
          (setCache CacheType.profesionales key 0 t0 d st) = some d) ∧
    (∀ (α : Type) (ty : CacheType) (key : List Char) (t : Nat),
      getCache ty key 0 t (initCache α) = none) ∧
    (∀ (α : Type) (st : CacheState α) (key key' : List Char) (ttl t0 t1 : Nat) (d : α),
      key' ≠ key →
        getCache CacheType.horas key' 0 t1 (setCache CacheType.horas key ttl t0 d st) =
          getCache CacheType.horas key' 0 t1 st) ∧
    (∀ (α : Type) (st : CacheState α) (key key' : List Char) (ttl t0 t1 : Nat) (d : α),
      key' ≠ key →
        getCache CacheType.profesionales key' 0 t1
            (setCache CacheType.profesionales key ttl t0 d st) =
          getCache CacheType.profesionales key' 0 t1 st) ∧
    (∀ (α : Type) (st : CacheState α) (key key' : List Char) (ttl t0 t1 : Nat) (d : α),
      getCache CacheType.profesionales key' 0 t1 (setCache CacheType.horas key ttl t0 d st) =
        getCache CacheType.profesionales key' 0 t1 st) ∧
    (∀ (α : Type) (st : CacheState α) (agenda1 agenda2 : List Char) (t0 t1 : Nat) (d : α),
      t1 - t0 < st.especialidades.ttl →
        especialidadesCacheCheck agenda2 t1
            (setCache CacheType.especialidades agenda1 0 t0 d st) = some d) ∧
    (∀ (α : Type) (st : CacheState α) (key : List Char) (now : Nat) (msg : List Char),
      horasCacheStep key now (Except.ok (WorkResult.softFail msg)) st = st ∧
        horasCacheStep key now (Except.error msg) st = st) ∧
    (∀ (α : Type) (st : CacheState α) (key : List Char) (now : Nat) (msg : List Char),
      profesionalesCacheStep key now (Except.ok (WorkResult.softFail msg)) st = st ∧
        profesionalesCacheStep key now (Except.error msg) st = st) := by
  refine ⟨?_, ?_, ?_, ?_, ?_, ?_, ?_, ?_, ?_, ?_, ?_, ?_⟩
  · intro α st key ttl t0 t1 d hpos hlt
    simp [getCache, setCache, getCacheMap, List.lookup, Nat.pos_iff_ne_zero.mp hpos, hlt]
  · intro α st key ttl t0 t1 d hpos hge
    simp [getCache, setCache, getCacheMap, List.lookup, Nat.pos_iff_ne_zero.mp hpos,
      Nat.not_lt.mpr hge]
  · intro α st key ttl t0 t1 d hpos hlt
    simp [getCache, setCache, getCacheMap, List.lookup, Nat.pos_iff_ne_zero.mp hpos, hlt]
  · intro α st key ttl t0 t1 d hpos hge
    simp [getCache, setCache, getCacheMap, List.lookup, Nat.pos_iff_ne_zero.mp hpos,
      Nat.not_lt.mpr hge]
  · intro α st key t0 t1 d hlt
    simp [getCache, setCache, getCacheMap, List.lookup, hlt]
  · intro α ty key t
    cases ty <;> simp [getCache, initCache, getCacheMap, List.lookup]
  · intro α st key key' ttl t0 t1 d hne
    simp [getCache, setCache, getCacheMap, List.lookup, beq_eq_false_iff_ne.mpr hne]
  · intro α st key key' ttl t0 t1 d hne
    simp [getCache, setCache, getCacheMap, List.lookup, beq_eq_false_iff_ne.mpr hne]
  · intro α st key key' ttl t0 t1 d
    simp [getCache, setCache, getCacheMap]
  · intro α st agenda1 agenda2 t0 t1 d hlt
    simp [especialidadesCacheCheck, getCache, setCache, hlt]
  · intro α st key now msg
    exact ⟨rfl, rfl⟩
  · intro α st key now msg
    exact ⟨rfl, rfl⟩

/-- Witness for C6 (amended): concrete set-then-get round trips within TTL for
both keyed caches, an expired horas get, a profesionales round trip under the
default 5-minute ttl, and a cross-key miss-preservation instance. -/
theorem cache_contract_amended_witness :
    (getCache CacheType.horas "k".data 0 2000
        (setCache CacheType.horas "k".data 60000 1000 (7 : Nat) (initCache Nat)) =
      some 7) ∧
    (getCache CacheType.horas "k".data 0 99999
        (setCache CacheType.horas "k".data 60000 1000 (7 : Nat) (initCache Nat)) =
      none) ∧
    (getCache CacheType.profesionales "p".data 0 2000
        (setCache CacheType.profesionales "p".data 60000 1000 (9 : Nat) (initCache Nat)) =
      some 9) ∧
    (getCache CacheType.profesionales "p".data 0 999999
        (setCache CacheType.profesionales "p".data 60000 1000 (9 : Nat) (initCache Nat)) =
      none) ∧
    (getCache CacheType.profesionales "p".data 0 2000
        (setCache CacheType.profesionales "p".data 0 1000 (9 : Nat) (initCache Nat)) =
      some 9) ∧
    (getCache CacheType.horas "other".data 0 2000
        (setCache CacheType.horas "k".data 60000 1000 (7 : Nat) (initCache Nat)) =
      getCache CacheType.horas "other".data 0 2000 (initCache Nat)) := by
  refine ⟨?_, ?_, ?_, ?_, ?_, ?_⟩
  · exact cache_contract_amended.1 Nat (initCache Nat) "k".data 60000 1000 2000 7
      (by decide) (by decide)
  · exact cache_contract_amended.2.1 Nat (initCache Nat) "k".data 60000 1000 99999 7
      (by decide) (by decide)
  · exact cache_contract_amended.2.2.1 Nat (initCache Nat) "p".data 60000 1000 2000 9
      (by decide) (by decide)
  · exact cache_contract_amended.2.2.2.1 Nat (initCache Nat) "p".data 60000 1000 999999 9
      (by decide) (by decide)
  · exact cache_contract_amended.2.2.2.2.1 Nat (initCache Nat) "p".data 1000 2000 9
      (by decide)
  · exact cache_contract_amended.2.2.2.2.2.2.1 Nat (initCache Nat) "k".data "other".data
      60000 1000 2000 7 (by decide)

theorem qInv_init : qInv initQState := by
  refine ⟨rfl, rfl, rfl, List.nodup_nil, ?_, rfl, rfl⟩
  intro d hd
  simp [initQState] at hd

theorem procQ_inv {s : QState} (t : Nat) (h : qInv s) : qInv (procQ t s) := by
  obtain ⟨h1, h2, h3, h4, h5, h6, h7⟩ := h
  rw [procQ]
  by_cases hp : s.isProcessing
  · rw [if_pos hp]
    exact ⟨h1, h2, h3, h4, h5, h6, h7⟩
  · rw [if_neg hp]
    cases hq : s.queue with
    | nil => exact ⟨h1, h2, h3, h4, h5, h6, h7⟩
    | cons k rest =>
      have hrn : s.running = none := by
        cases hr : s.running with
        | none => rfl
        | some r =>
          rw [hr] at h1
          simp at h1
          exact absurd h1 hp
      refine ⟨rfl, ?_, ?_, h4, h5, h6, ?_⟩
      · show s.submittedList = (s.startedList ++ [k]) ++ rest
        rw [h2, hq, List.append_assoc]
        rfl
      · show s.startedList ++ [k] = s.settledList.map Prod.fst ++ (some k).toList
        rw [h3, hrn]
        simp
      · show (s.startTimes ++ [(k, t)]).map Prod.fst = s.startedList ++ [k]
        rw [List.map_append, h7]
        rfl

theorem submit_inv {s : QState} (j t : Nat) (hfresh : j ∉ s.submittedList) (h : qInv s) :
    qInv (submitStep j t s) := by
  obtain ⟨h1, h2, h3, h4, h5, h6, h7⟩ := h
  apply procQ_inv
  refine ⟨h1, ?_, h3, ?_, h5, h6, h7⟩
  · show s.submittedList ++ [j] = s.startedList ++ (s.queue ++ [j])
    rw [h2, List.append_assoc]
  · show (s.submittedList ++ [j]).Nodup
    rw [List.nodup_append]
    refine ⟨h4, List.nodup_singleton j, ?_⟩
    intro a ha hmem
    rw [List.mem_singleton] at hmem
    subst hmem
    exact hfresh ha

theorem finish_inv {s : QState} (ok : Bool) (t : Nat) (h : qInv s) :
    qInv (finishStep ok t s) := by
  obtain ⟨h1, h2, h3, h4, h5, h6, h7⟩ := h
  rw [finishStep]
  cases hr : s.running with
  | none => exact ⟨h1, h2, h3, h4, h5, h6, h7⟩
  | some j =>
    refine ⟨rfl, h2, ?_, h4, ?_, ?_, h7⟩
    · show s.startedList = (s.settledList ++ [(j, ok)]).map Prod.fst ++ (none : Option Nat).toList
      rw [List.map_append, h3, hr]
      simp
    · show ∀ d ∈ s.pendingTimers ++ [t + 1500],
        ∃ a ta, (a, ta) ∈ s.settleTimes ++ [(j, t)] ∧ d = ta + 1500
      intro d hd
      rcases List.mem_append.mp hd with hd2 | hd2
      · obtain ⟨a, ta, hmem, heq⟩ := h5 d hd2
        exact ⟨a, ta, List.mem_append_left _ hmem, heq⟩
      · rw [List.mem_singleton] at hd2
        subst hd2
        exact ⟨j, t, List.mem_append_right _ (List.mem_singleton_self _), rfl⟩
    · show (s.settleTimes ++ [(j, t)]).map Prod.fst = (s.settledList ++ [(j, ok)]).map Prod.fst
      rw [List.map_append, List.map_append, h6]
      rfl

theorem fire_inv {s : QState} (d t : Nat) (h : qInv s) : qInv (fireStep d t s) := by
  obtain ⟨h1, h2, h3, h4, h5, h6, h7⟩ := h
  apply procQ_inv
  refine ⟨h1, h2, h3, h4, ?_, h6, h7⟩
  intro e he
  exact h5 e (List.mem_of_mem_erase he)

theorem queue_inv : ∀ {s : QState}, QReachable s → qInv s := by
  intro s hs
  induction hs with
  | init => exact qInv_init
  | step hr hstep ih =>
    cases hstep with
    | submit j t hfresh ht => exact submit_inv j t hfresh ih
    | finish ok t hrun ht => exact finish_inv ok t ih
    | fire d t hd ht hdue => exact fire_inv d t ih
theorem listBefore_append_left {a b : Nat} {l1 l2 : List Nat}
    (hnd : (l1 ++ l2).Nodup) (hlb : listBefore a b (l1 ++ l2)) (hb : b ∈ l1) :
    listBefore a b l1 := by
  obtain ⟨i, j, hij, ha, hbj⟩ := hlb
  have hjlt : j < l1.length := by
    by_contra hge
    push_neg at hge
    rw [List.get?_append_right hge] at hbj
    have hb2 : b ∈ l2 := List.get?_mem hbj
    rw [List.nodup_append] at hnd
    exact (hnd.2.2 hb) hb2
  have hilt : i < l1.length := lt_trans hij hjlt
  refine ⟨i, j, hij, ?_, ?_⟩
  · rw [← List.get?_append hilt]; exact ha
  · rw [← List.get?_append hjlt]; exact hbj

theorem listBefore_first_mem {a b : Nat} {l1 rl : List Nat}
    (hlb : listBefore a b (l1 ++ rl)) (hrl : rl.length ≤ 1) : a ∈ l1 := by
  obtain ⟨i, j, hij, ha, hbj⟩ := hlb
  have hj : j < (l1 ++ rl).length := by
    by_contra hge
    push_neg at hge
    rw [List.get?_len_le hge] at hbj
    cases hbj
  rw [List.length_append] at hj
  have hi : i < l1.length := by omega
  have ha2 : l1.get? i = some a := by
    rw [← List.get?_append hi]; exact ha
  exact List.get?_mem ha2

/-- C1: the serial execution queue runs at most one workflow at any instant
and serves waiting workflows in FIFO submission order: in every reachable
state the queue holds exactly the submitted-but-not-started jobs in
submission order, at most one started job is unsettled (no two handler
executions overlap), settlement order equals start order, and whenever a job
B has started, every job A submitted before B has already settled. -/
theorem queue_serial_fifo (s : QState) (hs : QReachable s) :
    s.submittedList = s.startedList ++ s.queue ∧
    s.startedList = s.settledList.map Prod.fst ++ s.running.toList ∧
    (∀ a b : Nat, listBefore a b s.submittedList → b ∈ s.startedList →
      a ∈ s.settledList.map Prod.fst) ∧
    (∀ a b : Nat, a ∈ s.startedList → b ∈ s.startedList →
      a ∉ s.settledList.map Prod.fst → b ∉ s.settledList.map Prod.fst → a = b) := by
  obtain ⟨h1, h2, h3, h4, h5, h6, h7⟩ := queue_inv hs
  refine ⟨h2, h3, ?_, ?_⟩
  · intro a b hlb hb
    rw [h2] at hlb
    have hlb1 : listBefore a b s.startedList := listBefore_append_left (h2 ▸ h4) hlb hb
    rw [h3] at hlb1
    exact listBefore_first_mem hlb1 (by cases s.running <;> simp)
  · intro a b ha hb hans hbns
    rw [h3] at ha hb
    rcases List.mem_append.mp ha with ha2 | ha2
    · exact absurd ha2 hans
    · rcases List.mem_append.mp hb with hb2 | hb2
      · exact absurd hb2 hbns
      · cases hr : s.running with
        | none => rw [hr] at ha2; simp at ha2
        | some r =>
          rw [hr] at ha2 hb2
          simp at ha2 hb2
          rw [ha2, hb2]

/-- Witness for C1: in the concrete two-job trace, job 0 (submitted before
job 1, which has started) has already settled. -/
theorem queue_serial_fifo_witness :
    (0 : Nat) ∈ queueWitnessState.settledList.map Prod.fst := by
  have r1 : QReachable (submitStep 0 0 initQState) :=
    QReachable.step QReachable.init (QueueStep.submit _ 0 0 (by decide) (by decide))
  have r2 : QReachable (submitStep 1 50 (submitStep 0 0 initQState)) :=
    QReachable.step r1 (QueueStep.submit _ 1 50 (by decide) (by decide))
  have r3 : QReachable (finishStep true 100 (submitStep 1 50 (submitStep 0 0 initQState))) :=
    QReachable.step r2 (QueueStep.finish _ true 100 (by decide) (by decide))
  have r4 : QReachable (fireStep 1600 1600
      (finishStep true 100 (submitStep 1 50 (submitStep 0 0 initQState)))) :=
    QReachable.step r3 (QueueStep.fire _ 1600 1600 (by decide) (by decide) (by decide))
  have r5 : QReachable queueWitnessState :=
    QReachable.step r4 (QueueStep.finish _ true 1700 (by decide) (by decide))
  exact (queue_serial_fifo queueWitnessState r5).2.2.1 0 1
    ⟨0, 1, by decide, by decide, by decide⟩ (by decide)
/-- Counterexample for C4: in the reachable trace `cooldownCexState`, job 0 is
submitted at 0 ms and settles at 100 ms; job 1, the next job executed (the
start history is [0, 1]), is submitted at 200 ms while the queue is idle and
starts immediately at 200 ms — sooner than 100 + 1500 ms after the previous
settlement, because `queueRequest` calls `processQueue()` synchronously and
only the timer path waits out the cooldown. -/
theorem cooldown_cex :
    QReachable cooldownCexState ∧
    cooldownCexState.startedList = [0, 1] ∧
    cooldownCexState.settledList = [(0, true)] ∧
    cooldownCexState.startTimes = [(0, 0), (1, 200)] ∧
    cooldownCexState.settleTimes = [(0, 100)] ∧
    200 < 100 + 1500 := by
  refine ⟨?_, by decide, by decide, by decide, by decide, by decide⟩
  exact QReachable.step
    (QReachable.step
      (QReachable.step QReachable.init (QueueStep.submit _ 0 0 (by decide) (by decide)))
      (QueueStep.finish _ true 100 (by decide) (by decide)))
    (QueueStep.submit _ 1 200 (by decide) (by decide))

theorem procQ_started {s : QState} {t j : Nat}
    (h : (procQ t s).startedList = s.startedList ++ [j]) :
    (procQ t s).startTimes = s.startTimes ++ [(j, t)] := by
  rw [procQ] at h ⊢
  by_cases hp : s.isProcessing
  · rw [if_pos hp] at h ⊢
    have := congrArg List.length h
    simp at this
  · rw [if_neg hp] at h ⊢
    cases hq : s.queue with
    | nil =>
      rw [hq] at h
      have := congrArg List.length h
      simp at this
    | cons k rest =>
      rw [hq] at h
      have hke : k = j := by
        have h2 : s.startedList ++ [k] = s.startedList ++ [j] := h
        have h3 := List.append_cancel_left h2
        simpa using h3
      show s.startTimes ++ [(k, t)] = s.startTimes ++ [(j, t)]
      rw [hke]

/-- C4 amended: the cooldown is guaranteed exactly for timer dequeues: a job
started by a firing `setTimeout(processQueue, 1500)` callback starts at a
time at least 1500 ms after the settlement that scheduled the callback; a job
submitted while the queue is idle (after a settlement but before the timer
fires) is started immediately by `queueRequest` and is not subject to the
cooldown. -/
theorem cooldown_timer_dequeue (s : QState) (d t j : Nat) (hs : QReachable s)
    (hd : d ∈ s.pendingTimers) (hdue : d ≤ t)
    (hstart : (fireStep d t s).startedList = s.startedList ++ [j]) :
    ∃ a ta, (a, ta) ∈ s.settleTimes ∧ d = ta + 1500 ∧ ta + 1500 ≤ t ∧
      (j, t) ∈ (fireStep d t s).startTimes := by
  obtain ⟨h1, h2, h3, h4, h5, h6, h7⟩ := queue_inv hs
  obtain ⟨a, ta, hmem, heq⟩ := h5 d hd
  have hst : (fireStep d t s).startTimes =
      ({ s with pendingTimers := s.pendingTimers.erase d, now := t } : QState).startTimes
        ++ [(j, t)] := by
    exact procQ_started (s := { s with pendingTimers := s.pendingTimers.erase d, now := t })
      hstart
  refine ⟨a, ta, hmem, heq, by omega, ?_⟩
  rw [hst]
  exact List.mem_append_right _ (by simp)

/-- Witness for C4 (amended): in the concrete trace where job 1 is already
waiting when job 0 settles at 100 ms, the cooldown timer due at 1600 ms fires
at 1600 ms and starts job 1 at 1600 ms, exactly 1500 ms after the recorded
settlement. -/
theorem cooldown_timer_dequeue_witness :
    ∃ a ta,
      (a, ta) ∈ (finishStep true 100 (submitStep 1 50 (submitStep 0 0 initQState))).settleTimes ∧
      (1600 : Nat) = ta + 1500 ∧ ta + 1500 ≤ 1600 ∧
      ((1 : Nat), (1600 : Nat)) ∈
        (fireStep 1600 1600
          (finishStep true 100 (submitStep 1 50 (submitStep 0 0 initQState)))).startTimes := by
  have r1 : QReachable (submitStep 0 0 initQState) :=
    QReachable.step QReachable.init (QueueStep.submit _ 0 0 (by decide) (by decide))
  have r2 : QReachable (submitStep 1 50 (submitStep 0 0 initQState)) :=
    QReachable.step r1 (QueueStep.submit _ 1 50 (by decide) (by decide))
  have r3 : QReachable (finishStep true 100 (submitStep 1 50 (submitStep 0 0 initQState))) :=
    QReachable.step r2 (QueueStep.finish _ true 100 (by decide) (by decide))
  exact cooldown_timer_dequeue _ 1600 1600 1 r3 (by decide) (by decide) (by decide)
/-- C9: a rejecting handler settles only its own job: the failure is recorded
for that job alone, earlier settlements are untouched, the queue survives with
the same waiting jobs and the same scheduled cooldown as the success path,
and once the cooldown timer fires the next waiting job starts. -/
theorem failure_rejects_only_that_job (s : QState) (j t : Nat) (hs : QReachable s)
    (hrun : s.running = some j) (ht : s.now ≤ t) :
    QReachable (finishStep false t s) ∧
    (finishStep false t s).settledList = s.settledList ++ [(j, false)] ∧
    (∀ p, p ∈ s.settledList → p ∈ (finishStep false t s).settledList) ∧
    (finishStep false t s).isProcessing = false ∧
    (finishStep false t s).running = none ∧
    (finishStep false t s).queue = s.queue ∧
    (finishStep false t s).pendingTimers = s.pendingTimers ++ [t + 1500] ∧
    ((finishStep false t s).queue = (finishStep true t s).queue ∧
      (finishStep false t s).pendingTimers = (finishStep true t s).pendingTimers ∧
      (finishStep false t s).isProcessing = (finishStep true t s).isProcessing) ∧
    (∀ k rest, s.queue = k :: rest →
      (fireStep (t + 1500) (t + 1500) (finishStep false t s)).running = some k ∧
      QReachable (fireStep (t + 1500) (t + 1500) (finishStep false t s))) := by
  have hfs : finishStep false t s =
      { s with
        running := none, isProcessing := false,
        settledList := s.settledList ++ [(j, false)],
        settleTimes := s.settleTimes ++ [(j, t)],
        pendingTimers := s.pendingTimers ++ [t + 1500], now := t } := by
    rw [finishStep, hrun]
  have hft : finishStep true t s =
      { s with
        running := none, isProcessing := false,
        settledList := s.settledList ++ [(j, true)],
        settleTimes := s.settleTimes ++ [(j, t)],
        pendingTimers := s.pendingTimers ++ [t + 1500], now := t } := by
    rw [finishStep, hrun]
  have hreach1 : QReachable (finishStep false t s) :=
    QReachable.step hs (QueueStep.finish s false t (by rw [hrun]; rfl) ht)
  refine ⟨hreach1, by rw [hfs], ?_, by rw [hfs], by rw [hfs], by rw [hfs], by rw [hfs],
    ⟨by rw [hfs, hft], by rw [hfs, hft], by rw [hfs, hft]⟩, ?_⟩
  · intro p hp
    rw [hfs]
    exact List.mem_append_left _ hp
  · intro k rest hk
    constructor
    · rw [hfs]
      simp [fireStep, procQ, hk]
    · refine QReachable.step hreach1 (QueueStep.fire _ (t + 1500) (t + 1500) ?_ ?_ ?_)
      · rw [hfs]
        exact List.mem_append_right _ (by simp)
      · rw [hfs]
        show t ≤ t + 1500
        omega
      · omega

/-- Witness for C9: with job 0 running and job 1 waiting, job 0 rejects at
100 ms; only (0, false) is recorded, the queue still holds job 1, the cooldown
timer is scheduled for 1600 ms, and when it fires job 1 starts. -/
theorem failure_rejects_only_that_job_witness :
    (finishStep false 100 queueFailState).settledList = [(0, false)] ∧
    (finishStep false 100 queueFailState).queue = [1] ∧
    (finishStep false 100 queueFailState).pendingTimers = [1600] ∧
    (fireStep 1600 1600 (finishStep false 100 queueFailState)).running = some 1 := by
  have r1 : QReachable (submitStep 0 0 initQState) :=
    QReachable.step QReachable.init (QueueStep.submit _ 0 0 (by decide) (by decide))
  have r2 : QReachable queueFailState :=
    QReachable.step r1 (QueueStep.submit _ 1 50 (by decide) (by decide))
  have hmain := failure_rejects_only_that_job queueFailState 0 100 r2 (by decide) (by decide)
  refine ⟨?_, ?_, ?_, ?_⟩
  · rw [hmain.2.1]; decide
  · rw [hmain.2.2.2.2.2.1]; decide
  · rw [hmain.2.2.2.2.2.2.1]; decide
  · exact (hmain.2.2.2.2.2.2.2.2 1 [] (by decide)).1

/-- C10: the completed-request counter is incremented exactly on the success
path of a queued handler: a structured soft failure (element not found) or a
thrown navigation error leaves it unchanged, so with a live browser below the
threshold, requests that fail cannot trigger a browser restart — the next
`getBrowser()` still returns the same handle. -/
theorem requestCount_only_on_success :
    (∀ (navOk esp prof : Bool) (body : List Char) (rc : Nat),
      (horasQueuedHandler navOk esp prof body rc).1 = rc + 1 ↔
        navOk = true ∧ esp = true ∧ prof = true) ∧
    (∀ (navOk esp prof : Bool) (body : List Char) (rc : Nat) (msg : List Char),
      (horasQueuedHandler navOk esp prof body rc).2 = Except.ok (WorkResult.softFail msg) →
        (horasQueuedHandler navOk esp prof body rc).1 = rc) ∧
    (∀ (navOk esp prof : Bool) (body : List Char) (rc : Nat) (msg : List Char),
      (horasQueuedHandler navOk esp prof body rc).2 = Except.error msg →
        (horasQueuedHandler navOk esp prof body rc).1 = rc) ∧
    (∀ (navOk : Bool) (found : List (List Char)) (rc : Nat),
      (especialidadesQueuedHandler navOk found rc).1 = rc + 1 ↔ navOk = true) ∧
    (∀ (navOk esp prof : Bool) (body : List Char) (st : BrowserState) (h : Nat)
        (cf lf : Bool),
      st.browser = some h → st.requestCount < 6 →
      (navOk = false ∨ esp = false ∨ prof = false) →
        (horasQueuedHandler navOk esp prof body st.requestCount).1 = st.requestCount ∧
        getBrowser cf lf st = (st, some h)) := by
  refine ⟨?_, ?_, ?_, ?_, ?_⟩
  · intro navOk esp prof body rc
    cases navOk <;> cases esp <;> cases prof <;> simp [horasQueuedHandler]
  · intro navOk esp prof body rc msg hr
    cases navOk <;> cases esp <;> cases prof <;> simp_all [horasQueuedHandler]
  · intro navOk esp prof body rc msg hr
    cases navOk <;> cases esp <;> cases prof <;> simp_all [horasQueuedHandler]
  · intro navOk found rc
    cases navOk <;> simp [especialidadesQueuedHandler]
  · intro navOk esp prof body st h cf lf hb hcnt hfail
    constructor
    · cases navOk <;> cases esp <;> cases prof <;> simp_all [horasQueuedHandler]
    · simp [getBrowser, hb, Nat.not_le.mpr hcnt]

/-- Witness for C10: a request whose especialidad selection fails leaves the
counter at 5, and the browser state with a live handle below the threshold is
untouched by the next acquire. -/
theorem requestCount_only_on_success_witness :
    ((horasQueuedHandler true false true horasExampleBody 5).1 = 5) ∧
    getBrowser false false { browser := some 0, requestCount := 5, launches := 1 } =
      ({ browser := some 0, requestCount := 5, launches := 1 }, some 0) := by
  have h := requestCount_only_on_success.2.2.2.2 true false true horasExampleBody
    { browser := some 0, requestCount := 5, launches := 1 } 0 false false rfl
    (by decide) (Or.inr (Or.inl rfl))
  exact ⟨h.1, h.2⟩
